import Mathlib

/-!
Verification development for `car2go_map.py`.

The script is a linear pipeline over a table of observations:
load → add constant `carh` column → cluster into zones → group-by
aggregation → per-zone chart/marker construction → save map.

We embed the pipeline shallowly:
* a row of the loaded table (after the `zone` column has been assigned by
  the clustering step) is an `Obs`;
* the `MiniBatchKMeans(250).fit_predict` call is an external library call
  whose output is the `zone` column; its contract is captured by the
  predicate `IsKMeans250`;
* pandas aggregations become list folds over rationals (the script's
  float arithmetic is modelled exactly over `ℚ`);
* the folium/vincent rendering objects are modelled by the `Marker`
  structure holding exactly the data the script passes to them.
-/

namespace Car2go

/-- One row of the dataframe after the clustering step: the loaded columns
`lat`, `lon`, `hod` (hour of day, an integer 0–23 bucket) plus the `zone`
label assigned by `fit_predict`. -/
structure Obs where
  lat : ℚ
  lon : ℚ
  hod : Fin 24
  zone : ℕ
deriving DecidableEq

/-- `samples_per_hour = 12` from the script. -/
def samples_per_hour : ℕ := 12

/-- The derived column `df["carh"] = 1.0/samples_per_hour`: a function of
the row that ignores the row. -/
def carh (_ : Obs) : ℚ := 1 / samples_per_hour

/-- `num_days = 30` from the script. -/
def num_days : ℕ := 30

/-- `df.query("zone==@i")`: the rows of the dataframe whose `zone` label is
`z`, in dataframe order. -/
def zoneRows (d : List Obs) (z : ℕ) : List Obs :=
  d.filter (fun r => r.zone == z)

/-- The group keys of `df.groupby("zone")`: the distinct `zone` labels,
which pandas emits in sorted order. -/
def zoneIds (d : List Obs) : List ℕ :=
  ((d.map (fun r => r.zone)).dedup).mergeSort (fun a b => decide (a ≤ b))

/-- The `carh` entry of `zones = df.groupby("zone").agg(dict(carh='sum', ...))`:
the sum of the `carh` column over the rows of zone `z`. -/
def zoneCarh (d : List Obs) (z : ℕ) : ℚ :=
  ((zoneRows d z).map carh).sum

/-- The `lat` entry of the `zones` aggregation: the mean latitude of the
rows of zone `z`. -/
def zoneLat (d : List Obs) (z : ℕ) : ℚ :=
  ((zoneRows d z).map (fun r => r.lat)).sum / (zoneRows d z).length

/-- The `lon` entry of the `zones` aggregation: the mean longitude of the
rows of zone `z`. -/
def zoneLon (d : List Obs) (z : ℕ) : ℚ :=
  ((zoneRows d z).map (fun r => r.lon)).sum / (zoneRows d z).length

/-- One group of `df.query("zone==@i").groupby("hod").carh.sum()`: the sum
of `carh` over the rows of zone `z` whose hour of day is `h`. -/
def hodSum (d : List Obs) (z : ℕ) (h : Fin 24) : ℚ :=
  (((zoneRows d z).filter (fun r => r.hod == h)).map carh).sum

/-- The index of the series `df.query("zone==@i").groupby("hod").carh.sum()`:
the distinct hours of day occurring among zone `z`'s rows, in sorted order
(`groupby` sorts its keys; over `Fin 24` the sorted distinct keys are the
members of `List.finRange 24` that occur). -/
def hodsPresent (d : List Obs) (z : ℕ) : List (Fin 24) :=
  (List.finRange 24).filter (fun h => (zoneRows d z).any (fun r => r.hod == h))

/-- The series `carh_by_hod = df.query("zone==@i").groupby("hod").carh.sum()/num_days`:
one `(hour, value)` pair per hour of day occurring in zone `z`. -/
def carh_by_hod (d : List Obs) (z : ℕ) : List (Fin 24 × ℚ) :=
  (hodsPresent d z).map (fun h => (h, hodSum d z h / (num_days : ℚ)))

/-- The 24-entry colour tuple of the script. -/
def colors : List String :=
  [ "#274cc9", "#274cc9", "#274cc9", "#274cc9",
    "#274cc9", "#3959bf", "#647aa6", "#909b8c", "#bcbc73",
    "#e8dd5a", "#f1e455", "#f1e455", "#f1e455", "#f1e455",
    "#f0df56", "#ecc45a", "#e7a95f", "#e28e63", "#de7467",
    "#c46576", "#9d5f8a", "#76599f", "#4e52b4", "#274cc9" ]

theorem colors_length : colors.length = 24 := rfl

/-- Tuple indexing `(...)[k]` for `k` an hour of day. -/
def colorAt (h : Fin 24) : String :=
  colors.get (Fin.cast colors_length.symm h)

/-- `radius = int(6*math.sqrt(w))`.  For `w ≥ 0` this is `⌊6·√w⌋ = ⌊√(36·w)⌋`,
computed exactly on the rational `w = num/den` as `⌊⌊√(36·num·den)⌋/den⌋`
(`int()` truncates toward zero, which is the floor for non-negative
arguments). -/
def radius (w : ℚ) : ℕ :=
  Nat.sqrt (36 * w.num.toNat * w.den) / w.den

/-- Helper for `idxmax`: scan the remaining pairs keeping the current best,
replacing it only on a strict increase (so the first occurrence of the
maximum wins, as in pandas). -/
def idxmaxAux (best : Fin 24 × ℚ) : List (Fin 24 × ℚ) → Fin 24
  | [] => best.1
  | p :: rest => if best.2 < p.2 then idxmaxAux p rest else idxmaxAux best rest

/-- `Series.idxmax()`: the index label of the first occurrence of the
maximum value; pandas raises on an empty series, so the result is an
`Option`. -/
def idxmax : List (Fin 24 × ℚ) → Option (Fin 24)
  | [] => none
  | p :: rest => some (idxmaxAux p rest)

/-- `fill_color = (...)[carh_by_hod.idxmax()]` for zone `z`. -/
def fill_color (d : List Obs) (z : ℕ) : Option String :=
  (idxmax (carh_by_hod d z)).map colorAt

/-- The data the script passes to folium for one zone: the `CircleMarker`
arguments plus the popup chart's dataset. -/
structure Marker where
  location : ℚ × ℚ
  radius : ℕ
  fill_color : String
  popup : List (Fin 24 × ℚ)
deriving DecidableEq

/-- The body of the `for i, zone in zones.iterrows()` loop for zone `z`:
a `CircleMarker` at the zone centroid, with truncated-square-root radius,
the colour of the peak hour, and the hourly chart as popup.  `none` exactly
when the loop body would raise (idxmax of an empty series). -/
def makeMarker (d : List Obs) (z : ℕ) : Option Marker :=
  (idxmax (carh_by_hod d z)).map (fun h =>
    { location := (zoneLat d z, zoneLon d z)
      radius := radius (zoneCarh d z)
      fill_color := colorAt h
      popup := carh_by_hod d z })

/-- The whole loop: one marker added to the map per row of `zones`, i.e.
per distinct zone label, in `zones` order. -/
def buildMap (d : List Obs) : Option (List Marker) :=
  (zoneIds d).mapM (makeMarker d)

/-- A default marker, used only as the out-of-range fallback of `List.getD`. -/
def dummyMarker : Marker := ⟨(0, 0), 0, "", []⟩

/-- A one-row dataset: one observation at hour 0 assigned to zone 0. -/
def exA : List Obs := [⟨0, 0, 0, 0⟩]

/-- A two-row dataset in one zone, with one observation at hour 2 and one at
hour 5 (so the two hourly buckets tie). -/
def exB : List Obs := [⟨0, 0, 2, 0⟩, ⟨0, 0, 5, 0⟩]

/-- A 250-row dataset with one observation in each of the zones 0–249. -/
def exC : List Obs := (List.range 250).map (fun z => ⟨0, 0, 0, z⟩)

/-- Modelled from the spec: the contract of the external
`MiniBatchKMeans(250).fit_predict` call, which is library code not part of
this repository.  Per the spec, "the map is divided into 250 zones" and
"zone count is fixed (250) and assigned by the clustering step": every row
receives a zone label below 250 and every one of the 250 labels is
assigned to some row. -/
def IsKMeans250 (d : List Obs) : Prop :=
  (∀ r ∈ d, r.zone < 250) ∧ (∀ z < 250, ∃ r ∈ d, r.zone = z)

/-! ### Helper lemmas about `radius` -/

lemma sqrt_eq_of {n q : ℕ} (h1 : q * q ≤ n) (h2 : n < (q + 1) * (q + 1)) :
    Nat.sqrt n = q :=
  Nat.le_antisymm (Nat.le_of_lt_succ (Nat.sqrt_lt.mpr h2)) (Nat.le_sqrt.mpr h1)

lemma radius_char {w : ℚ} (hw : 0 ≤ w) :
    ((radius w : ℚ)) ^ 2 ≤ 36 * w ∧ 36 * w < ((radius w : ℚ) + 1) ^ 2 := by
  have hbpos : 0 < w.den := w.den_pos
  have hrd : radius w = Nat.sqrt (36 * w.num.toNat * w.den) / w.den := rfl
  have hsle := Nat.sqrt_le (36 * w.num.toNat * w.den)
  have hslt := Nat.lt_succ_sqrt (36 * w.num.toNat * w.den)
  rw [Nat.succ_eq_add_one] at hslt
  -- bound below: radius w * radius w * den ≤ 36 * num
  have k1 : radius w * radius w * w.den ≤ 36 * w.num.toNat := by
    have h1 : radius w * w.den ≤ Nat.sqrt (36 * w.num.toNat * w.den) := by
      rw [hrd]; exact Nat.div_mul_le_self _ _
    have h2 : (radius w * w.den) * (radius w * w.den) ≤ 36 * w.num.toNat * w.den :=
      le_trans (Nat.mul_le_mul h1 h1) hsle
    have h3 : (radius w * radius w * w.den) * w.den ≤ (36 * w.num.toNat) * w.den := by
      calc (radius w * radius w * w.den) * w.den
          = (radius w * w.den) * (radius w * w.den) := by ring
        _ ≤ 36 * w.num.toNat * w.den := h2
    exact Nat.le_of_mul_le_mul_right h3 hbpos
  -- bound above: 36 * num < (radius w + 1) * (radius w + 1) * den
  have k2 : 36 * w.num.toNat < (radius w + 1) * (radius w + 1) * w.den := by
    have h1 : Nat.sqrt (36 * w.num.toNat * w.den) < (radius w + 1) * w.den := by
      have := (Nat.div_lt_iff_lt_mul hbpos).mp
        (Nat.lt_succ_self (Nat.sqrt (36 * w.num.toNat * w.den) / w.den))
      rwa [← hrd] at this
    have h1' : Nat.sqrt (36 * w.num.toNat * w.den) + 1 ≤ (radius w + 1) * w.den :=
      Nat.succ_le_of_lt h1
    have h2 : 36 * w.num.toNat * w.den <
        ((radius w + 1) * w.den) * ((radius w + 1) * w.den) :=
      lt_of_lt_of_le hslt (Nat.mul_le_mul h1' h1')
    have h3 : (36 * w.num.toNat) * w.den <
        ((radius w + 1) * (radius w + 1) * w.den) * w.den := by
      calc (36 * w.num.toNat) * w.den
          < ((radius w + 1) * w.den) * ((radius w + 1) * w.den) := h2
        _ = ((radius w + 1) * (radius w + 1) * w.den) * w.den := by ring
    exact Nat.lt_of_mul_lt_mul_right h3
  -- transfer to ℚ
  have hq : w = (w.num.toNat : ℚ) / (w.den : ℚ) := by
    have h0 : ((w.num.toNat : ℕ) : ℚ) = ((w.num : ℤ) : ℚ) := by
      exact_mod_cast Int.toNat_of_nonneg (Rat.num_nonneg.mpr hw)
    rw [h0]
    exact (Rat.num_div_den w).symm
  have hb' : (0 : ℚ) < (w.den : ℚ) := by exact_mod_cast hbpos
  obtain ⟨r, hr⟩ : ∃ r, radius w = r := ⟨_, rfl⟩
  rw [hr] at k1 k2 ⊢
  constructor
  · rw [hq, mul_div_assoc']
    rw [le_div_iff hb', pow_two]
    exact_mod_cast k1
  · rw [hq, mul_div_assoc']
    rw [div_lt_iff hb', pow_two]
    have hcast : ((r : ℚ) + 1) * ((r : ℚ) + 1) * (w.den : ℚ) =
        (((r + 1) * (r + 1) * w.den : ℕ) : ℚ) := by push_cast; ring
    rw [hcast]
    exact_mod_cast k2

/-! ### Helper lemmas about list sums and the hourly profile -/

lemma sum_map_div {α : Type} (l : List α) (f : α → ℚ) (c : ℚ) :
    (l.map (fun x => f x / c)).sum = (l.map f).sum / c := by
  induction l with
  | nil => simp
  | cons x l ih => simp [ih, add_div]

lemma sum_filter_eq_sum_of_zero {α : Type} (l : List α) (p : α → Bool) (f : α → ℚ)
    (h : ∀ x ∈ l, p x = false → f x = 0) :
    ((l.filter p).map f).sum = (l.map f).sum := by
  induction l with
  | nil => simp
  | cons x l ih =>
    have ih' := ih (fun y hy => h y (List.mem_cons_of_mem _ hy))
    cases hp : p x with
    | true => simp [List.filter_cons, hp, ih']
    | false => simp [List.filter_cons, hp, ih', h x (List.mem_cons_self _ _) hp]

lemma sum_hod_partition (L : List Obs) (f : Obs → ℚ) :
    ((List.finRange 24).map
      (fun h => ((L.filter (fun r => r.hod == h)).map f).sum)).sum = (L.map f).sum := by
  induction L with
  | nil => simp
  | cons r L ih =>
    rw [← Fin.sum_univ_def] at ih ⊢
    calc ∑ h : Fin 24, (((r :: L).filter (fun x => x.hod == h)).map f).sum
        = ∑ h : Fin 24, ((if r.hod = h then f r else 0) +
            ((L.filter (fun x => x.hod == h)).map f).sum) := by
          apply Finset.sum_congr rfl
          intro h _
          by_cases hh : r.hod = h
          · simp [List.filter_cons, hh]
          · simp [List.filter_cons, hh]
      _ = (∑ h : Fin 24, if r.hod = h then f r else 0) +
            ∑ h : Fin 24, ((L.filter (fun x => x.hod == h)).map f).sum :=
          Finset.sum_add_distrib
      _ = f r + (L.map f).sum := by rw [Finset.sum_ite_eq]; simp [ih]
      _ = ((r :: L).map f).sum := by simp

lemma zoneCarh_eq_sum_hod (d : List Obs) (z : ℕ) :
    ((List.finRange 24).map (fun h => hodSum d z h)).sum = zoneCarh d z :=
  sum_hod_partition (zoneRows d z) carh

lemma present_sum (d : List Obs) (z : ℕ) :
    ((hodsPresent d z).map (fun h => hodSum d z h)).sum
      = ((List.finRange 24).map (fun h => hodSum d z h)).sum := by
  apply sum_filter_eq_sum_of_zero
  intro h _ hany
  have hnil : (zoneRows d z).filter (fun r => r.hod == h) = [] := by
    rw [List.filter_eq_nil]
    intro a ha hp
    have htrue : (zoneRows d z).any (fun r => r.hod == h) = true :=
      List.any_eq_true.mpr ⟨a, ha, hp⟩
    rw [hany] at htrue
    exact Bool.false_ne_true htrue
  simp [hodSum, hnil]

lemma carh_by_hod_fst (d : List Obs) (z : ℕ) :
    (carh_by_hod d z).map Prod.fst = hodsPresent d z := by
  rw [carh_by_hod, List.map_map]
  exact List.map_id _

/-! ### Helper lemmas about `idxmax` -/

lemma idxmaxAux_nil (best : Fin 24 × ℚ) : idxmaxAux best [] = best.1 := rfl

lemma idxmaxAux_cons (best a : Fin 24 × ℚ) (rest : List (Fin 24 × ℚ)) :
    idxmaxAux best (a :: rest) =
      if best.2 < a.2 then idxmaxAux a rest else idxmaxAux best rest := rfl

lemma idxmaxAux_max (l : List (Fin 24 × ℚ)) :
    ∀ best : Fin 24 × ℚ, ∃ v, (idxmaxAux best l, v) ∈ best :: l ∧
      ∀ p ∈ best :: l, p.2 ≤ v := by
  induction l with
  | nil =>
    intro best
    refine ⟨best.2, by simp [idxmaxAux_nil], ?_⟩
    intro p hp
    rw [List.mem_singleton] at hp
    subst hp
    exact le_refl _
  | cons a rest ih =>
    intro best
    by_cases hlt : best.2 < a.2
    · obtain ⟨v, hm, hb⟩ := ih a
      rw [idxmaxAux_cons, if_pos hlt]
      refine ⟨v, List.mem_cons_of_mem _ hm, ?_⟩
      intro p hp
      rcases List.mem_cons.mp hp with rfl | hp'
      · exact le_trans (le_of_lt hlt) (hb a (List.mem_cons_self _ _))
      · exact hb p hp'
    · obtain ⟨v, hm, hb⟩ := ih best
      rw [idxmaxAux_cons, if_neg hlt]
      refine ⟨v, ?_, ?_⟩
      · rcases List.mem_cons.mp hm with heq | hm'
        · rw [heq]; exact List.mem_cons_self _ _
        · exact List.mem_cons_of_mem _ (List.mem_cons_of_mem _ hm')
      · intro p hp
        rcases List.mem_cons.mp hp with rfl | hp'
        · exact hb p (List.mem_cons_self _ _)
        rcases List.mem_cons.mp hp' with rfl | hp''
        · exact le_trans (not_lt.mp hlt) (hb best (List.mem_cons_self _ _))
        · exact hb p (List.mem_cons_of_mem _ hp'')

lemma idxmax_max {l : List (Fin 24 × ℚ)} {h : Fin 24} (hl : idxmax l = some h) :
    ∃ v, (h, v) ∈ l ∧ ∀ p ∈ l, p.2 ≤ v := by
  cases l with
  | nil => simp [idxmax] at hl
  | cons a rest =>
    rw [idxmax] at hl
    injection hl with hl'
    obtain ⟨v, hm, hb⟩ := idxmaxAux_max rest a
    exact ⟨v, by rwa [hl'] at hm, hb⟩

lemma idxmaxAux_first (l : List (Fin 24 × ℚ)) :
    ∀ best : Fin 24 × ℚ,
      List.Pairwise (fun a b : Fin 24 × ℚ => a.1 < b.1) (best :: l) →
      ∀ p ∈ best :: l, (∀ q ∈ best :: l, q.2 ≤ p.2) → idxmaxAux best l ≤ p.1 := by
  induction l with
  | nil =>
    intro best _ p hp _
    rw [List.mem_singleton] at hp
    subst hp
    rw [idxmaxAux_nil]
  | cons a rest ih =>
    intro best hpw p hp hmax
    have hba : best.1 < a.1 :=
      (List.pairwise_cons.mp hpw).1 a (List.mem_cons_self _ _)
    have hpw_tail : List.Pairwise (fun a b : Fin 24 × ℚ => a.1 < b.1) (a :: rest) :=
      (List.pairwise_cons.mp hpw).2
    have hpw_best_rest :
        List.Pairwise (fun a b : Fin 24 × ℚ => a.1 < b.1) (best :: rest) := by
      rcases List.pairwise_cons.mp hpw with ⟨hbest, htail⟩
      rcases List.pairwise_cons.mp htail with ⟨_, hrest⟩
      exact List.pairwise_cons.mpr
        ⟨fun q hq => hbest q (List.mem_cons_of_mem _ hq), hrest⟩
    rw [idxmaxAux_cons]
    by_cases hlt : best.2 < a.2
    · rw [if_pos hlt]
      rcases List.mem_cons.mp hp with rfl | hp'
      · exact absurd (hmax a (List.mem_cons_of_mem _ (List.mem_cons_self _ _)))
          (not_le.mpr hlt)
      · exact ih a hpw_tail p hp'
          (fun q hq => hmax q (List.mem_cons_of_mem _ hq))
    · rw [if_neg hlt]
      have hab : a.2 ≤ best.2 := not_lt.mp hlt
      have hmax' : ∀ q ∈ best :: rest, q.2 ≤ p.2 := by
        intro q hq
        rcases List.mem_cons.mp hq with heqq | hq'
        · rw [heqq]
          exact hmax best (List.mem_cons_self _ _)
        · exact hmax q (List.mem_cons_of_mem _ (List.mem_cons_of_mem _ hq'))
      rcases List.mem_cons.mp hp with heqp | hp'
      · rw [heqp]
        exact ih best hpw_best_rest best (List.mem_cons_self _ _)
          (fun q hq => heqp ▸ hmax' q hq)
      rcases List.mem_cons.mp hp' with heqa | hp''
      · have hba2 : best.2 ≤ p.2 := hmax best (List.mem_cons_self _ _)
        have hpb : p.2 ≤ best.2 := by
          rw [heqa]
          exact hab
        have hpbest : p.2 = best.2 := le_antisymm hpb hba2
        have hres : idxmaxAux best rest ≤ best.1 :=
          ih best hpw_best_rest best (List.mem_cons_self _ _)
            (fun q hq => hpbest ▸ hmax' q hq)
        rw [heqa]
        exact le_trans hres (le_of_lt hba)
      · exact ih best hpw_best_rest p (List.mem_cons_of_mem _ hp'') hmax'

lemma carh_by_hod_pairwise (d : List Obs) (z : ℕ) :
    List.Pairwise (fun a b : Fin 24 × ℚ => a.1 < b.1) (carh_by_hod d z) := by
  rw [carh_by_hod, List.pairwise_map]
  exact (List.pairwise_lt_finRange 24).filter _

/-! ### Helper lemmas about zone membership and the marker loop -/

lemma makeMarker_isSome {d : List Obs} {z : ℕ} (hz : z ∈ zoneIds d) :
    (makeMarker d z).isSome := by
  rw [zoneIds, List.mem_mergeSort, List.mem_dedup, List.mem_map] at hz
  obtain ⟨r, hrd, hrz⟩ := hz
  have hrzr : r ∈ zoneRows d z := by
    rw [zoneRows, List.mem_filter]
    exact ⟨hrd, by simp [hrz]⟩
  have hhod : r.hod ∈ hodsPresent d z := by
    rw [hodsPresent, List.mem_filter]
    exact ⟨List.mem_finRange _, List.any_eq_true.mpr ⟨r, hrzr, by simp⟩⟩
  have hne : carh_by_hod d z ≠ [] := by
    rw [carh_by_hod]
    intro hcon
    rw [List.map_eq_nil] at hcon
    rw [hcon] at hhod
    simp at hhod
  cases hl : carh_by_hod d z with
  | nil => exact absurd hl hne
  | cons a rest => simp [makeMarker, hl, idxmax]

lemma mapM_option {α β : Type} (f : α → Option β) (l : List α)
    (hf : ∀ x ∈ l, (f x).isSome) :
    ∃ ys, l.mapM f = some ys ∧ ys.length = l.length ∧
      ∀ (i : ℕ) (h1 : i < l.length) (h2 : i < ys.length),
        f (l.get ⟨i, h1⟩) = some (ys.get ⟨i, h2⟩) := by
  induction l with
  | nil => exact ⟨[], rfl, rfl, fun i h1 _ => absurd h1 (Nat.not_lt_zero i)⟩
  | cons x l ih =>
    obtain ⟨y, hy⟩ := Option.isSome_iff_exists.mp (hf x (List.mem_cons_self _ _))
    obtain ⟨ys, hys, hlen, hget⟩ := ih (fun z hz => hf z (List.mem_cons_of_mem _ hz))
    refine ⟨y :: ys, ?_, by simp [hlen], ?_⟩
    · rw [List.mapM_cons, hy, hys]
      rfl
    · intro i h1 h2
      cases i with
      | zero => simpa using hy
      | succ n =>
        exact hget n (Nat.lt_of_succ_lt_succ h1) (Nat.lt_of_succ_lt_succ h2)

/-! ### Helper evaluations on the concrete datasets -/

lemma carh_by_hod_exA :
    carh_by_hod exA 0 = [(0, hodSum exA 0 0 / (num_days : ℚ))] := by
  have h1 : hodsPresent exA 0 = [0] := by decide
  rw [carh_by_hod, h1]
  rfl

lemma idxmax_exA : idxmax (carh_by_hod exA 0) = some 0 := by
  rw [carh_by_hod_exA]
  rfl

lemma hodSum_exB_eq : hodSum exB 0 2 = hodSum exB 0 5 := by
  simp [hodSum, zoneRows, exB, carh]

lemma carh_by_hod_exB :
    carh_by_hod exB 0 = [(2, hodSum exB 0 2 / (num_days : ℚ)),
      (5, hodSum exB 0 5 / (num_days : ℚ))] := by
  have h1 : hodsPresent exB 0 = [2, 5] := by decide
  rw [carh_by_hod, h1]
  rfl

lemma idxmax_exB : idxmax (carh_by_hod exB 0) = some 2 := by
  rw [carh_by_hod_exB, idxmax, idxmaxAux_cons, hodSum_exB_eq]
  rw [if_neg (lt_irrefl _)]
  rfl

lemma zoneIds_exA_len : (zoneIds exA).length = 1 := by
  rw [zoneIds, List.length_mergeSort]
  decide

lemma radius_one : radius 1 = 6 := by
  have h1 : Nat.sqrt 36 = 6 := sqrt_eq_of (by decide) (by decide)
  simp [radius, h1]

lemma radius_two : radius 2 = 8 := by
  have h1 : Nat.sqrt 72 = 8 := sqrt_eq_of (by decide) (by decide)
  simp [radius, h1]

end Car2go

namespace Car2go

/-- C1 (counterexample): the radius is `int(6*math.sqrt(w))`, and the `int`
truncation breaks exact proportionality to `√w`: the achievable total
weights `w = 1` (12 rows in a zone) and `w = 2` (24 rows) give radii 6 and
8, but no single constant `c` satisfies both `6 = c·√1` and `8 = c·√2`. -/
theorem radius_not_proportional_sqrt :
    ¬ ∃ c : ℝ, ((radius 1 : ℝ) = c * Real.sqrt 1 ∧ (radius 2 : ℝ) = c * Real.sqrt 2) := by
  rintro ⟨c, h1, h2⟩
  rw [Real.sqrt_one, mul_one, radius_one] at h1
  rw [radius_two] at h2
  norm_num at h1 h2
  rw [← h1] at h2
  have hs : Real.sqrt 2 = 4 / 3 := by linarith
  have h2sq := Real.sq_sqrt (by norm_num : (0 : ℝ) ≤ 2)
  rw [hs] at h2sq
  norm_num at h2sq

/-- C1 (amended): for every non-negative weight `w` the circle radius is the
integer part of `6·√w`: it is the unique natural number `r` with
`r² ≤ 36·w < (r+1)²`, so the circle area is proportional to the total
weight up to the truncation of the radius to an integer. -/
theorem radius_floor_six_sqrt {w : ℚ} (hw : 0 ≤ w) :
    ((radius w : ℚ)) ^ 2 ≤ 36 * w ∧ 36 * w < ((radius w : ℚ) + 1) ^ 2 :=
  radius_char hw

/-- C1 (witness): the amended characterisation evaluated at `w = 2`. -/
theorem radius_floor_six_sqrt_witness :
    (0 : ℚ) ≤ 2 ∧
      (((radius 2 : ℚ)) ^ 2 ≤ 36 * 2 ∧ 36 * 2 < ((radius 2 : ℚ) + 1) ^ 2) :=
  ⟨by decide, radius_floor_six_sqrt (by decide)⟩

/-- C5: the circle-radius function is monotone non-decreasing in the zone's
total car-hour weight. -/
theorem radius_monotone {w1 w2 : ℚ} (h0 : 0 ≤ w1) (h12 : w1 ≤ w2) :
    radius w1 ≤ radius w2 := by
  by_contra hcon
  push_neg at hcon
  have c1 := (radius_char h0).1
  have c2 := (radius_char (h0.trans h12)).2
  have hle : ((radius w2 : ℚ) + 1) ≤ (radius w1 : ℚ) := by exact_mod_cast hcon
  have hle2 : ((radius w2 : ℚ) + 1) ^ 2 ≤ ((radius w1 : ℚ)) ^ 2 :=
    pow_le_pow_left (by positivity) hle 2
  linarith

/-- C5 (witness): monotonicity evaluated at weights 1 and 2. -/
theorem radius_monotone_witness : radius 1 ≤ radius 2 :=
  radius_monotone (by decide) (by decide)

/-- C7: the derived per-row car-hour weight is the constant `1/12`,
whatever the row's latitude, longitude and hour of day are. -/
theorem carh_constant_one_twelfth : ∀ r : Obs, carh r = 1 / 12 := by
  intro r
  simp [carh, samples_per_hour]

/-- C9: with the clustering's zone assignment fixed (it is part of the
input `Obs` rows), the whole pipeline is a pure function of the dataset:
two runs on the same input produce identical zone aggregates, hourly
profiles, fill colours and marker lists. -/
theorem pipeline_deterministic (d1 d2 : List Obs) (h : d1 = d2) :
    zoneIds d1 = zoneIds d2 ∧
      (∀ z, zoneCarh d1 z = zoneCarh d2 z ∧ zoneLat d1 z = zoneLat d2 z ∧
        zoneLon d1 z = zoneLon d2 z ∧ carh_by_hod d1 z = carh_by_hod d2 z ∧
        fill_color d1 z = fill_color d2 z) ∧
      buildMap d1 = buildMap d2 := by
  subst h
  exact ⟨rfl, fun z => ⟨rfl, rfl, rfl, rfl, rfl⟩, rfl⟩

/-- C2 (counterexample): a zone whose observations use only one hour of day
gets a 1-bucket profile, not a 24-bucket one: `groupby("hod")` only creates
groups for hours that actually occur. -/
theorem profile_buckets_not_always_24 :
    0 ∈ zoneIds exA ∧ (carh_by_hod exA 0).length ≠ 24 := by
  constructor
  · rw [zoneIds, List.mem_mergeSort, List.mem_dedup]
    simp [exA]
  · decide

/-- C2 (amended): the per-zone hourly profile has one bucket per distinct
hour of day occurring among the zone's observations — the bucket indices
are exactly the occurring hours, without repetition, and there are at most
24 of them; the profile has 24 buckets only when every hour occurs. -/
theorem profile_buckets_are_present_hours (d : List Obs) (z : ℕ) :
    ((carh_by_hod d z).map Prod.fst).Nodup ∧
      (∀ h : Fin 24, h ∈ (carh_by_hod d z).map Prod.fst ↔
        ∃ r ∈ zoneRows d z, r.hod = h) ∧
      (carh_by_hod d z).length ≤ 24 := by
  refine ⟨?_, ?_, ?_⟩
  · rw [carh_by_hod_fst]
    exact (List.nodup_finRange 24).filter _
  · intro h
    rw [carh_by_hod_fst, hodsPresent, List.mem_filter]
    simp [List.any_eq_true, List.mem_finRange]
  · rw [carh_by_hod, List.length_map, hodsPresent]
    calc (List.filter _ (List.finRange 24)).length
        ≤ (List.finRange 24).length := List.length_filter_le _ _
      _ = 24 := List.length_finRange 24

/-- C3: under the clustering contract (every row labelled with one of the
250 zone ids and every id used), the aggregated `zones` table has exactly
250 rows. -/
theorem zone_count_eq_250 (d : List Obs) (h : IsKMeans250 d) :
    (zoneIds d).length = 250 := by
  obtain ⟨hub, hsurj⟩ := h
  rw [zoneIds, List.length_mergeSort, ← List.card_toFinset]
  have hset : (d.map (fun r => r.zone)).toFinset = Finset.range 250 := by
    apply Finset.ext
    intro z
    simp only [List.mem_toFinset, List.mem_map, Finset.mem_range]
    constructor
    · rintro ⟨r, hr, rfl⟩
      exact hub r hr
    · intro hz
      obtain ⟨r, hrd, hrz⟩ := hsurj z hz
      exact ⟨r, hrd, hrz⟩
  rw [hset, Finset.card_range]

/-- C3 (witness): the zone count on a concrete dataset hitting all 250
zone labels. -/
theorem zone_count_eq_250_witness :
    IsKMeans250 exC ∧ (zoneIds exC).length = 250 := by
  have hk : IsKMeans250 exC := by
    constructor
    · intro r hr
      simp only [exC, List.mem_map, List.mem_range] at hr
      obtain ⟨z, hz, rfl⟩ := hr
      exact hz
    · intro z hz
      refine ⟨⟨0, 0, 0, z⟩, ?_, rfl⟩
      simp only [exC, List.mem_map, List.mem_range]
      exact ⟨z, hz, rfl⟩
  exact ⟨hk, zone_count_eq_250 exC hk⟩

/-- C4: for every zone, the sum of the hourly profile multiplied by the
number of days (30) equals the zone's total recorded car-hour weight (an
exact identity in exact arithmetic). -/
theorem profile_sum_times_days_eq_total (d : List Obs) (z : ℕ) :
    ((carh_by_hod d z).map Prod.snd).sum * (num_days : ℚ) = zoneCarh d z := by
  have h30 : ((num_days : ℕ) : ℚ) ≠ 0 := by norm_num [num_days]
  rw [carh_by_hod, List.map_map]
  have hcomp : (Prod.snd ∘ fun h : Fin 24 => (h, hodSum d z h / (num_days : ℚ)))
      = fun h => hodSum d z h / (num_days : ℚ) := rfl
  rw [hcomp, sum_map_div, div_mul_cancel₀ _ h30, present_sum, zoneCarh_eq_sum_hod]

/-- C6: for every zone with a colour (i.e. whose profile is non-empty, so
`idxmax` returns an hour `h`), the hour `h` attains the maximal aggregated
average car-hour weight of the zone, and the marker's fill colour is the
colour-table entry at index `h`. -/
theorem fill_color_eq_peak_hour_color (d : List Obs) (z : ℕ) (h : Fin 24)
    (hidx : idxmax (carh_by_hod d z) = some h) :
    (h, hodSum d z h / (num_days : ℚ)) ∈ carh_by_hod d z ∧
      (∀ p ∈ carh_by_hod d z, p.2 ≤ hodSum d z h / (num_days : ℚ)) ∧
      fill_color d z = some (colorAt h) := by
  obtain ⟨v, hm, hb⟩ := idxmax_max hidx
  have hv : v = hodSum d z h / (num_days : ℚ) := by
    rw [carh_by_hod] at hm
    obtain ⟨h', _, heq⟩ := List.mem_map.mp hm
    obtain ⟨he1, he2⟩ := Prod.mk.injEq _ _ _ _ ▸ heq
    rw [← he2, he1]
  rw [hv] at hm hb
  refine ⟨hm, hb, ?_⟩
  rw [fill_color, hidx]
  rfl

/-- C6 (witness): the peak-hour colour selection evaluated on `exA`, whose
single zone has its whole weight at hour 0. -/
theorem fill_color_eq_peak_hour_color_witness :
    idxmax (carh_by_hod exA 0) = some 0 ∧
      ((0, hodSum exA 0 0 / (num_days : ℚ)) ∈ carh_by_hod exA 0 ∧
        (∀ p ∈ carh_by_hod exA 0, p.2 ≤ hodSum exA 0 0 / (num_days : ℚ)) ∧
        fill_color exA 0 = some (colorAt 0)) :=
  ⟨idxmax_exA, fill_color_eq_peak_hour_color exA 0 0 idxmax_exA⟩

/-- C10: under a tie, the colour hour returned by `idxmax` is the smallest
hour attaining the maximum: for every profile entry `p` whose value is
maximal, the selected hour is at most `p`'s hour.  (The profile is sorted
by hour, and `idxmax` keeps the first occurrence of the maximum.) -/
theorem fill_color_tie_first_hour (d : List Obs) (z : ℕ) (h : Fin 24)
    (hidx : idxmax (carh_by_hod d z) = some h) :
    ∀ p ∈ carh_by_hod d z, (∀ q ∈ carh_by_hod d z, q.2 ≤ p.2) → h ≤ p.1 := by
  intro p hp hmax
  have hpw := carh_by_hod_pairwise d z
  cases hl : carh_by_hod d z with
  | nil =>
    rw [hl] at hp
    simp at hp
  | cons a rest =>
    rw [hl] at hpw hp hmax hidx
    rw [idxmax] at hidx
    injection hidx with hh
    rw [← hh]
    exact idxmaxAux_first rest a hpw p hp hmax

/-- C10 (witness): the tie-break evaluated on `exB`, whose zone has equal
weight at hours 2 and 5; hour 5 attains the maximum, and the selected hour
2 is at most 5. -/
theorem fill_color_tie_first_hour_witness :
    idxmax (carh_by_hod exB 0) = some 2 ∧ ((2 : Fin 24) ≤ (5 : Fin 24)) := by
  refine ⟨idxmax_exB, ?_⟩
  have hp : (5, hodSum exB 0 5 / (num_days : ℚ)) ∈ carh_by_hod exB 0 := by
    rw [carh_by_hod_exB]
    simp
  have hmax : ∀ q ∈ carh_by_hod exB 0, q.2 ≤ hodSum exB 0 5 / (num_days : ℚ) := by
    rw [carh_by_hod_exB]
    intro q hq
    rcases List.mem_cons.mp hq with heq1 | hq'
    · rw [heq1, hodSum_exB_eq]
    · rw [List.mem_singleton] at hq'
      rw [hq']
  exact fill_color_tie_first_hour exB 0 2 idxmax_exB
    (5, hodSum exB 0 5 / (num_days : ℚ)) hp hmax

/-- C8: the saved map contains exactly one circle marker per zone of the
aggregated zone table — the loop succeeds, produces as many markers as
there are distinct zone labels, and the `i`-th marker sits at the `i`-th
zone's centroid. -/
theorem one_marker_per_zone_at_centroid (d : List Obs) (i : ℕ)
    (h1 : i < (zoneIds d).length) :
    (buildMap d).isSome = true ∧
      ((buildMap d).getD []).length = (zoneIds d).length ∧
      (((buildMap d).getD []).getD i dummyMarker).location =
        (zoneLat d ((zoneIds d).getD i 0), zoneLon d ((zoneIds d).getD i 0)) := by
  obtain ⟨ms, hms, hlen, hget⟩ :=
    mapM_option (makeMarker d) (zoneIds d) (fun z hz => makeMarker_isSome hz)
  have hbm : buildMap d = some ms := hms
  rw [hbm]
  simp only [Option.isSome_some, Option.getD_some]
  refine ⟨trivial, hlen, ?_⟩
  have h2 : i < ms.length := hlen ▸ h1
  rw [List.getD_eq_get ms dummyMarker h2, List.getD_eq_get (zoneIds d) 0 h1]
  have hmk := hget i h1 h2
  rw [makeMarker] at hmk
  obtain ⟨h', _, hmark⟩ := Option.map_eq_some'.mp hmk
  rw [← hmark]

/-- C8 (witness): the marker construction evaluated on `exA`, which has a
single zone. -/
theorem one_marker_per_zone_at_centroid_witness :
    (buildMap exA).isSome = true ∧
      ((buildMap exA).getD []).length = (zoneIds exA).length ∧
      (((buildMap exA).getD []).getD 0 dummyMarker).location =
        (zoneLat exA ((zoneIds exA).getD 0 0), zoneLon exA ((zoneIds exA).getD 0 0)) :=
  one_marker_per_zone_at_centroid exA 0
    (by rw [zoneIds_exA_len]; exact Nat.one_pos)

/-- C9 (witness): determinism evaluated on the concrete dataset `exA`. -/
theorem pipeline_deterministic_witness :
    zoneIds exA = zoneIds exA ∧
      (∀ z, zoneCarh exA z = zoneCarh exA z ∧ zoneLat exA z = zoneLat exA z ∧
        zoneLon exA z = zoneLon exA z ∧ carh_by_hod exA z = carh_by_hod exA z ∧
        fill_color exA z = fill_color exA z) ∧
      buildMap exA = buildMap exA :=
  pipeline_deterministic exA exA rfl

end Car2go
